import Mathlib

/-!
# jni-verify: descriptor parsing and cross-signature validation

Shallow embedding of `src/lib.rs` of the `jni-verify` crate.  The crate's
behaviour is entirely driven by the `regex` crate, so we first embed a small
regular-expression engine with the same semantics as the fragment of `regex`
the crate uses: leftmost-first (Perl-style backtracking) matching, unanchored
searching, capture groups, and iterated non-overlapping matches.  Every star
and plus in the crate's patterns ranges over a single character class, so the
AST carries character-class stars directly; this keeps the matcher total.

Strings are modelled as `List Char`.  The `syn`-level plumbing (spans,
token streams) is out of scope: a function declaration is modelled by its
identifier, the rendered type-path strings of its parameters, and its
optional rendered return type, exactly the strings the source computes with
`fn_arg_as_string` / `type_path_as_string`.
-/

namespace JniVerify

/-- Regular expression AST.  `cls` matches a single character satisfying the
class predicate; `starC` is a greedy star over a character class (the only
form of repetition occurring in the crate's patterns); `alt` prefers its left
branch; `grp n r` is the capture group numbered `n`. -/
inductive RE where
  | eps : RE
  | cls (p : Char → Bool) : RE
  | starC (p : Char → Bool) : RE
  | cat (a b : RE) : RE
  | alt (a b : RE) : RE
  | grp (n : Nat) (a : RE) : RE

/-- A literal character. -/
def chr (c : Char) : RE := .cls (fun d => d == c)

/-- The class of `.` in the `regex` crate's default mode: any character other
than a newline. -/
def dotC (c : Char) : Bool := c != '\n'

/-- `r?` (greedy: prefers to match). -/
def optR (r : RE) : RE := .alt r .eps

/-- `[p]+` — one or more characters of a class, greedy. -/
def plusC (p : Char → Bool) : RE := .cat (.cls p) (.starC p)

/-- A pattern string in which `.` is the any-character class and every other
character is a literal.  This is how the `regex` crate compiles the crate's
literal-looking patterns (`Ljava.lang.String;`, method names made of word
characters and dots, ...): the dots are unescaped and act as wildcards. -/
def litDot : List Char → RE
  | [] => .eps
  | c :: cs => .cat (if c = '.' then .cls dotC else chr c) (litDot cs)

/-- First `some` produced along a list, in order (backtracking priority). -/
def firstSome : List α → (α → Option β) → Option β
  | [], _ => none
  | a :: l, f =>
    match f a with
    | some b => some b
    | none => firstSome l f

/-- All ways a greedy class-star can split its input, most-preferred (longest)
first: prefixes of the maximal run of class characters, paired with the
corresponding suffixes. -/
def starSplits (p : Char → Bool) (s : List Char) : List (List Char × List Char) :=
  ((List.range ((s.takeWhile p).length + 1)).reverse).map fun i => (s.take i, s.drop i)

/-- Backtracking matcher in continuation-passing style, implementing
leftmost-first (Perl/`regex`-crate) priority: alternation tries the left
branch first with full backtracking, class stars try the longest extent
first.  `caps` accumulates capture groups; `grp` records the consumed span.
The continuation receives the remaining suffix and the captures. -/
def mc : RE → List Char → List (Nat × List Char) →
    (List Char → List (Nat × List Char) → Option α) → Option α
  | .eps, s, caps, k => k s caps
  | .cls p, s, caps, k =>
    match s with
    | [] => none
    | c :: s' => if p c then k s' caps else none
  | .starC p, s, caps, k => firstSome (starSplits p s) fun uv => k uv.2 caps
  | .cat a b, s, caps, k => mc a s caps fun s' caps' => mc b s' caps' k
  | .alt a b, s, caps, k =>
    match mc a s caps k with
    | some x => some x
    | none => mc b s caps k
  | .grp n a, s, caps, k =>
    mc a s caps fun s' caps' => k s' ((n, s.take (s.length - s'.length)) :: caps')

/-- Run the matcher anchored at the start of `s`; on success return the
remaining suffix and the captures of the preferred match. -/
def mcRun (r : RE) (s : List Char) : Option (List Char × List (Nat × List Char)) :=
  mc r s [] fun rest caps => some (rest, caps)

/-- Unanchored search: try each start position left to right (the `regex`
crate's leftmost-match rule).  On success return the skipped prefix, the
matched span, the remaining suffix and the captures. -/
def searchAux (r : RE) : List Char → List Char →
    Option (List Char × List Char × List Char × List (Nat × List Char))
  | acc, [] =>
    match mcRun r [] with
    | some rc => some (acc.reverse, [], rc.1, rc.2)
    | none => none
  | acc, c :: s' =>
    match mcRun r (c :: s') with
    | some rc =>
      some (acc.reverse, (c :: s').take ((c :: s').length - rc.1.length), rc.1, rc.2)
    | none => searchAux r (c :: acc) s'

/-- Leftmost-first unanchored search from the start of `s`. -/
def search (r : RE) (s : List Char) :
    Option (List Char × List Char × List Char × List (Nat × List Char)) :=
  searchAux r [] s

/-- `Regex::is_match`: true when some substring matches. -/
def isMatch (r : RE) (s : List Char) : Bool :=
  (search r s).isSome

/-- `SIGNATURE_REGEX`: the pattern `\((?<params>.*)\)(?<ret>.+)` of
`src/lib.rs` line 25; group 1 is `params`, group 2 is `ret`. -/
def SIGNATURE_REGEX : RE :=
  .cat (chr '(')
    (.cat (.grp 1 (.starC dotC))
      (.cat (chr ')') (.grp 2 (plusC dotC))))

/-- The class `[IJBZCSFDV]` of `TYPE_REGEX` (primitive codes, including the
void code). -/
def primV (c : Char) : Bool :=
  c == 'I' || c == 'J' || c == 'B' || c == 'Z' || c == 'C' ||
  c == 'S' || c == 'F' || c == 'D' || c == 'V'

/-- The class `[^IJBZCSFDVL;]` of `TYPE_REGEX`. -/
def junk1 (c : Char) : Bool := !(primV c || c == 'L' || c == ';')

/-- The class `[^IJBZCSFDVL;\[]` of `TYPE_REGEX`. -/
def junk2 (c : Char) : Bool := !(primV c || c == 'L' || c == ';' || c == '[')

/-- The class `[\w\.]` of `TYPE_REGEX` (ASCII reading of `\w`, which covers
every character the repository's descriptors use). -/
def wordDot (c : Char) : Bool := c.isAlphanum || c == '_' || c == '.'

/-- First alternation branch of `TYPE_REGEX`:
`[^IJBZCSFDVL;]*[IJBZCSFDV][^IJBZCSFDVL;\[]*`. -/
def TYPE_ALT1 : RE := .cat (.starC junk1) (.cat (.cls primV) (.starC junk2))

/-- Second alternation branch of `TYPE_REGEX`: `L[\w\.]+\;`. -/
def TYPE_ALT2 : RE := .cat (chr 'L') (.cat (plusC wordDot) (chr ';'))

/-- `TYPE_REGEX`: the pattern
`\[?(?:[^IJBZCSFDVL;]*[IJBZCSFDV][^IJBZCSFDVL;\[]*|L[\w\.]+\;)` of
`src/lib.rs` line 26. -/
def TYPE_REGEX : RE := .cat (optR (chr '[')) (.alt TYPE_ALT1 TYPE_ALT2)

/-- `TYPE_TO_DESCRIPTOR` (`src/lib.rs` lines 60–94): native type name to the
pattern describing the descriptor fragments it accepts, entry for entry. -/
def TYPE_TO_DESCRIPTOR : List (List Char × RE) :=
  [ ("()".data, chr 'V'),
    ("jint".data, chr 'I'),
    ("jlong".data, chr 'J'),
    ("jbyte".data, chr 'B'),
    ("jboolean".data, chr 'Z'),
    ("jchar".data, chr 'C'),
    ("jshort".data, chr 'S'),
    ("jfloat".data, chr 'F'),
    ("jdouble".data, chr 'D'),
    ("jobject".data, .cat (chr 'L') (.cat (plusC dotC) (chr ';'))),
    ("jclass".data, litDot "Ljava.lang.Class;".data),
    ("jthrowable".data, litDot "Ljava.lang.Throwable;".data),
    ("jstring".data, litDot "Ljava.lang.String;".data),
    ("jarray".data, .cat (chr '[') (plusC dotC)),
    ("jbooleanArray".data, .cat (chr '[') (chr 'Z')),
    ("jbyteArray".data, .cat (chr '[') (chr 'B')),
    ("jcharArray".data, .cat (chr '[') (chr 'C')),
    ("jshortArray".data, .cat (chr '[') (chr 'S')),
    ("jintArray".data, .cat (chr '[') (chr 'I')),
    ("jlongArray".data, .cat (chr '[') (chr 'J')),
    ("jfloatArray".data, .cat (chr '[') (chr 'F')),
    ("jdoubleArray".data, .cat (chr '[') (chr 'D')),
    ("jobjectArray".data, .cat (chr '[') (.cat (chr 'L') (.cat (plusC dotC) (chr ';')))),
    ("JByteBuffer".data, litDot "java.nio.ByteBuffer".data),
    ("JClass".data, litDot "java.lang.Class".data),
    ("JList".data, litDot "java.lang.List".data),
    ("JMap".data, litDot "java.util.Map".data),
    ("JObject".data, .cat (chr 'L') (.cat (plusC dotC) (chr ';'))),
    ("JObjectArray".data, .cat (chr '[') (litDot "java.lang.Object".data)),
    ("JPrimitiveArray".data, .cat (chr '[') (.cls primV)),
    ("JString".data, litDot "java.lang.String".data),
    ("JThrowable".data, litDot "java.lang.Throwable".data) ]

/-- `TYPE_TO_DESCRIPTOR.get(name)` (a `HashMap` keyed by the rendered native
type name). -/
def lookupDescriptor (ty : List Char) : Option RE :=
  (TYPE_TO_DESCRIPTOR.find? fun e => e.1 == ty).map (·.2)

/-- The per-position compatibility test of `ensure_parameters_match`:
look the declared native type up in the registry and run the pattern's
(unanchored) `is_match` against the descriptor fragment. -/
def typeAccepts (ty : List Char) (frag : List Char) : Option Bool :=
  (lookupDescriptor ty).map fun r => isMatch r frag

/-- The parsed form of a descriptor: the parameter tokens and the raw return
capture (struct `Signature` of `src/lib.rs`, minus the span). -/
structure Signature where
  params : List (List Char)
  ret : List Char
deriving DecidableEq, Repr

/-- Every failure the crate can raise with `abort!`. -/
inductive VerifyError where
  /-- "Invalid signature, expected `(...)...`" -/
  | malformedDescriptor : VerifyError
  /-- "Function name {f} doesn't match the java method. Expected
  Java_<ClassName>_{name}" -/
  | namingConvention (functionName name : List Char) : VerifyError
  /-- "Function must have a {ty} parameter here, instead has {got}";
  `pos` stands for the source span (first or second parameter). -/
  | missingContextParam (pos : Nat) (expected : List Char) (got : Option (List Char)) : VerifyError
  /-- "Different number of arguments to signature ({m}) and rust function
  ({n}, excluding JNIEnv and JClass)!" -/
  | parameterCount (sigCount fnCount : Nat) : VerifyError
  /-- "Invalid parameter type for JNI method. Can't convert type {ty} to
  descriptor" -/
  | unknownParamType (ty : List Char) : VerifyError
  /-- "Parameters don't match the rust function!" -/
  | parameterTypeMismatch : VerifyError
  /-- "Invalid return type for JNI method. Can't convert type {ty} to
  descriptor" -/
  | unknownReturnType (ty : List Char) : VerifyError
  /-- "Return type `{ty}` doesn't match signature `{ret}`!" -/
  | returnTypeMismatch (ty ret : List Char) : VerifyError
deriving DecidableEq, Repr

/-- Look a capture group up in the capture list of a successful match. -/
def lookupCap (n : Nat) (caps : List (Nat × List Char)) : List Char :=
  ((caps.find? fun e => e.1 == n).map (·.2)).getD []

/-- `TYPE_REGEX.captures_iter` over a haystack: repeatedly find the leftmost
(first-preference) match and continue after it, collecting the matched spans.
Fuel-driven for totality; `TYPE_REGEX` never matches the empty string, and an
empty match stops the scan. -/
def tokensGo : Nat → List Char → List (List Char)
  | 0, _ => []
  | fuel + 1, s =>
    match search TYPE_REGEX s with
    | none => []
    | some (_, matched, rest, _) =>
      if matched.isEmpty then [] else matched :: tokensGo fuel rest

/-- The token list `TYPE_REGEX.captures_iter(params_haystack)` produces. -/
def tokensOf (s : List Char) : List (List Char) :=
  tokensGo s.length s

/-- `impl Parse for Args` (`src/lib.rs` lines 29–57), restricted to the
signature string: run `SIGNATURE_REGEX.captures`, aborting with the
malformed-descriptor error when there is no match, then tokenize the `params`
capture with `TYPE_REGEX.captures_iter` and keep the `ret` capture verbatim. -/
def parseSignature (sig : List Char) : Except VerifyError Signature :=
  match search SIGNATURE_REGEX sig with
  | none => .error .malformedDescriptor
  | some (_, _, _, caps) =>
    .ok { params := tokensOf (lookupCap 1 caps), ret := lookupCap 2 caps }

/-- The naming test of `ensure_function_name_is_valid_for_jni` (`src/lib.rs`
lines 134–154): build the pattern `Java_.+_` followed by the method name
spliced in verbatim (unescaped, so its dots are wildcards — `litDot` renders
this compilation for names over word characters and dots) and run the
unanchored `is_match` against the function identifier. -/
def jniNameMatches (functionName name : List Char) : Bool :=
  isMatch (.cat (litDot "Java_".data) (.cat (plusC dotC) (.cat (chr '_') (litDot name))))
    functionName

/-- `ensure_function_name_is_valid_for_jni` as a result. -/
def ensure_function_name_is_valid_for_jni (functionName name : List Char) :
    Except VerifyError Unit :=
  if jniNameMatches functionName name then .ok ()
  else .error (.namingConvention functionName name)

/-- `ensure_param_is` (`src/lib.rs` lines 156–168): the (optional) parameter's
rendered type must equal the required context type exactly; `pos` models the
abort's source span (which parameter slot failed). -/
def ensure_param_is (pos : Nat) (param : Option (List Char)) (paramType : List Char) :
    Except VerifyError Unit :=
  if param == some paramType then .ok ()
  else .error (.missingContextParam pos paramType param)

/-- The lazy all-true reduction inside `ensure_parameters_match`: walk the
zipped (argument, token) pairs, aborting on an unknown native type, stopping
with `false` at the first non-matching pair (Rust's `Iterator::all`
short-circuits, so later unknown types after a failing pair are not
reached). -/
def paramsAll : List (List Char) → List (List Char) → Except VerifyError Bool
  | [], _ => .ok true
  | _, [] => .ok true
  | a :: as', p :: ps =>
    match lookupDescriptor a with
    | none => .error (.unknownParamType a)
    | some r => if isMatch r p then paramsAll as' ps else .ok false

/-- `ensure_parameters_match` (`src/lib.rs` lines 170–205). -/
def ensure_parameters_match (arguments : List (List Char)) (signature : Signature) :
    Except VerifyError Unit :=
  if signature.params.length ≠ arguments.length then
    .error (.parameterCount signature.params.length arguments.length)
  else
    match paramsAll arguments signature.params with
    | .error e => .error e
    | .ok true => .ok ()
    | .ok false => .error .parameterTypeMismatch

/-- `ensure_return_types_match` (`src/lib.rs` lines 207–252): an absent
return type renders as `"()"`, the registry pattern for the rendered return
type must `is_match` the raw return capture. -/
def ensure_return_types_match (output : Option (List Char)) (signature : Signature) :
    Except VerifyError Unit :=
  match lookupDescriptor (output.getD "()".data) with
  | none => .error (.unknownReturnType (output.getD "()".data))
  | some r =>
    if isMatch r signature.ret then .ok ()
    else .error (.returnTypeMismatch (output.getD "()".data) signature.ret)

/-- `verify_signature` (`src/lib.rs` lines 256–273): parse the attribute
arguments (which aborts on a malformed descriptor), then check the naming
convention, the two fixed context parameters, the remaining parameters and
the return type, in that order, stopping at the first failure. -/
def verify_signature (name sig : List Char) (functionName : List Char)
    (fnInputs : List (List Char)) (fnOutput : Option (List Char)) :
    Except VerifyError Unit :=
  match parseSignature sig with
  | .error e => .error e
  | .ok signature =>
    match ensure_function_name_is_valid_for_jni functionName name with
    | .error e => .error e
    | .ok _ =>
      match ensure_param_is 0 fnInputs.head? "JNIEnv".data with
      | .error e => .error e
      | .ok _ =>
        match ensure_param_is 1 (fnInputs.drop 1).head? "JClass".data with
        | .error e => .error e
        | .ok _ =>
          match ensure_parameters_match (fnInputs.drop 2) signature with
          | .error e => .error e
          | .ok _ => ensure_return_types_match fnOutput signature

/-- Re-serialization of a parsed signature: parameter tokens concatenated,
wrapped in parentheses, followed by the return token. -/
def serialize (s : Signature) : List Char :=
  '(' :: s.params.flatten ++ ')' :: s.ret

/-! ## Claim-support definitions -/

/-- ASCII word characters (the literal-by-construction part of `\w`). -/
def wordChar (c : Char) : Bool := c.isAlphanum || c == '_'

/-- Whether `needle` occurs as a contiguous run inside `hay`. -/
def containsSeq (needle : List Char) : List Char → Bool
  | [] => needle.isPrefixOf []
  | c :: t => needle.isPrefixOf (c :: t) || containsSeq needle t

/-- `ScatteredIn ts s`: the lists `ts` occur in `s` in this order as
pairwise disjoint contiguous runs (arbitrary gaps in between). -/
inductive ScatteredIn : List (List Char) → List Char → Prop where
  | nil (gap : List Char) : ScatteredIn [] gap
  | cons (pre t : List Char) {ts : List (List Char)} {rest : List Char} :
      ScatteredIn ts rest → ScatteredIn (t :: ts) (pre ++ t ++ rest)

/-- Primitive type codes of the descriptor grammar (the "no value" code `V`
is not a parameter type). -/
def isPrim (c : Char) : Bool :=
  c == 'I' || c == 'J' || c == 'B' || c == 'Z' || c == 'C' ||
  c == 'S' || c == 'F' || c == 'D'

/-- Well-formed descriptor type fragments, following the spec's grammar
(§4.2): a primitive code, an object reference `L<PathSegments>;`, or an
array marker followed by a component fragment. -/
inductive WFfrag : List Char → Prop where
  | prim {c : Char} : isPrim c = true → WFfrag [c]
  | obj {w : List Char} : w ≠ [] → (∀ c ∈ w, wordDot c = true) →
      WFfrag ('L' :: (w ++ [';']))
  | arr {f : List Char} : WFfrag f → WFfrag ('[' :: f)

/-- The well-formed fragments whose shape the tokenizer reproduces exactly:
primitive codes under arbitrarily many array markers, and object references
under at most one array marker.  (Multi-dimensional object arrays are the
well-formed fragments excluded here.) -/
inductive TokFrag : List Char → Prop where
  | primA {k : Nat} {c : Char} : isPrim c = true →
      TokFrag (List.replicate k '[' ++ [c])
  | objA {d : Nat} {w : List Char} : d ≤ 1 → w ≠ [] →
      (∀ c ∈ w, wordDot c = true) →
      TokFrag (List.replicate d '[' ++ ('L' :: (w ++ [';'])))

/-- Well-formed return fragments: any fragment of the spec's grammar or the
no-value code.  (The return capture is kept verbatim by the parser, so no
tokenizer-shape restriction applies to it.) -/
def RetFrag (r : List Char) : Prop := WFfrag r ∨ r = ['V']

/-- The rest of a haystack at a fragment boundary: empty, or starting with a
character no trailing junk class can absorb (an array marker, an object
marker, or a primitive code). -/
def fragBoundary (rest : List Char) : Prop :=
  rest = [] ∨ ∃ c t, rest = c :: t ∧ junk2 c = false

/-! ## Relational semantics of the regex fragment

`RM r s` is the standard match relation: `s` is exactly a word of the
language of `r`.  The backtracking engine is proved sound and complete with
respect to it, which lets universal statements about the crate's checks be
settled by reasoning about derivations instead of executions. -/

/-- The match relation. -/
inductive RM : RE → List Char → Prop where
  | eps : RM .eps []
  | cls {p c} : p c = true → RM (.cls p) [c]
  | starNil {p} : RM (.starC p) []
  | starCons {p c s} : p c = true → RM (.starC p) s → RM (.starC p) (c :: s)
  | cat {a b u v} : RM a u → RM b v → RM (.cat a b) (u ++ v)
  | altL {a b s} : RM a s → RM (.alt a b) s
  | altR {a b s} : RM b s → RM (.alt a b) s
  | grp {n a s} : RM a s → RM (.grp n a) s

theorem RM_starC_iff {p : Char → Bool} {s : List Char} :
    RM (.starC p) s ↔ ∀ c ∈ s, p c = true := by
  constructor
  · intro h
    induction s with
    | nil => simp
    | cons c t ih =>
      cases h with
      | starCons hc ht =>
        intro d hd
        rcases List.mem_cons.mp hd with rfl | hd
        · exact hc
        · exact ih ht d hd
  · intro h
    induction s with
    | nil => exact RM.starNil
    | cons c t ih =>
      exact RM.starCons (h c (by simp)) (ih fun d hd => h d (by simp [hd]))

theorem firstSome_cons_some {a : α} {l : List α} {f : α → Option β} {b : β}
    (h : f a = some b) : firstSome (a :: l) f = some b := by
  simp [firstSome, h]

theorem firstSome_eq_some {l : List α} {f : α → Option β} {b : β}
    (h : firstSome l f = some b) : ∃ a ∈ l, f a = some b := by
  induction l with
  | nil => simp [firstSome] at h
  | cons a l ih =>
    rw [firstSome] at h
    cases hf : f a with
    | some c => rw [hf] at h; exact ⟨a, by simp, hf.trans h⟩
    | none =>
      rw [hf] at h
      obtain ⟨a', ha', hfa'⟩ := ih h
      exact ⟨a', by simp [ha'], hfa'⟩

theorem firstSome_isSome {l : List α} {f : α → Option β} :
    (firstSome l f).isSome = true ↔ ∃ a ∈ l, (f a).isSome = true := by
  induction l with
  | nil => simp [firstSome]
  | cons a l ih =>
    rw [firstSome]
    cases hf : f a with
    | some c => simp [hf]
    | none => simp [hf, ih]

theorem firstSome_unique {l : List α} {f : α → Option β} {y : α} {b : β}
    (hmem : y ∈ l) (hsome : f y = some b)
    (huniq : ∀ a ∈ l, a ≠ y → f a = none) :
    firstSome l f = some b := by
  induction l with
  | nil => simp at hmem
  | cons a l ih =>
    by_cases ha : a = y
    · subst ha; exact firstSome_cons_some hsome
    · have hfa : f a = none := huniq a (by simp) ha
      rw [firstSome, hfa]
      have hmem' : y ∈ l := by
        rcases List.mem_cons.mp hmem with h | h
        · exact absurd h.symm ha
        · exact h
      exact ih hmem' fun x hx hne => huniq x (by simp [hx]) hne

/-- Characters of a `take` within the maximal `takeWhile` run satisfy the
class. -/
theorem take_all_of_le_takeWhile {p : Char → Bool} :
    ∀ (s : List Char) (i : Nat), i ≤ (s.takeWhile p).length →
      ∀ c ∈ s.take i, p c = true := by
  intro s
  induction s with
  | nil => intro i _ c hc; simp at hc
  | cons a t ih =>
    intro i hi c hc
    cases hp : p a with
    | true =>
      rw [List.takeWhile_cons, hp] at hi
      cases i with
      | zero => simp at hc
      | succ j =>
        rw [List.take_succ_cons] at hc
        rcases List.mem_cons.mp hc with rfl | hc
        · exact hp
        · exact ih j (Nat.le_of_succ_le_succ (by simpa using hi)) c hc
    | false =>
      rw [List.takeWhile_cons, hp] at hi
      simp at hi
      subst hi
      simp at hc

/-- A prefix made of class characters is no longer than the maximal run. -/
theorem length_le_takeWhile_of_all {p : Char → Bool} :
    ∀ (u v : List Char), (∀ c ∈ u, p c = true) →
      u.length ≤ ((u ++ v).takeWhile p).length := by
  intro u
  induction u with
  | nil => intro v _; simp
  | cons a t ih =>
    intro v hall
    have hp : p a = true := hall a (by simp)
    rw [List.cons_append, List.takeWhile_cons, hp]
    simpa using ih v fun c hc => hall c (by simp [hc])

theorem starSplits_mem {p : Char → Bool} {s u v : List Char} :
    (u, v) ∈ starSplits p s ↔ s = u ++ v ∧ ∀ c ∈ u, p c = true := by
  constructor
  · intro h
    simp only [starSplits, List.mem_map, List.mem_reverse, List.mem_range] at h
    obtain ⟨i, hi, heq⟩ := h
    obtain ⟨hu, hv⟩ : s.take i = u ∧ s.drop i = v := by
      constructor <;> [exact congrArg Prod.fst heq; exact congrArg Prod.snd heq]
    refine ⟨by rw [← hu, ← hv, List.take_append_drop], ?_⟩
    intro c hc
    exact take_all_of_le_takeWhile s i (Nat.le_of_lt_succ hi) c (hu ▸ hc)
  · rintro ⟨rfl, hall⟩
    simp only [starSplits, List.mem_map, List.mem_reverse, List.mem_range]
    refine ⟨u.length, Nat.lt_succ_of_le (length_le_takeWhile_of_all u v hall), ?_⟩
    rw [List.take_left, List.drop_left]

/-- Soundness of the backtracking engine: a successful run consumed a genuine
match and handed the remainder to the continuation. -/
theorem mc_sound {α : Type} {r : RE} :
    ∀ {s : List Char} {caps : List (Nat × List Char)}
      {k : List Char → List (Nat × List Char) → Option α} {x : α},
      mc r s caps k = some x →
      ∃ u v caps', s = u ++ v ∧ RM r u ∧ k v caps' = some x := by
  induction r with
  | eps =>
    intro s caps k x h
    exact ⟨[], s, caps, rfl, RM.eps, h⟩
  | cls p =>
    intro s caps k x h
    cases s with
    | nil => simp [mc] at h
    | cons c s' =>
      simp only [mc] at h
      split at h
      · exact ⟨[c], s', caps, rfl, RM.cls (by assumption), h⟩
      · simp at h
  | starC p =>
    intro s caps k x h
    simp only [mc] at h
    obtain ⟨⟨u, v⟩, hmem, hf⟩ := firstSome_eq_some h
    obtain ⟨hs, hall⟩ := starSplits_mem.mp hmem
    exact ⟨u, v, caps, hs, RM_starC_iff.mpr hall, hf⟩
  | cat a b iha ihb =>
    intro s caps k x h
    simp only [mc] at h
    obtain ⟨u1, v1, caps1, hs, hu1, h1⟩ := iha h
    obtain ⟨u2, v2, caps2, hv, hu2, h2⟩ := ihb h1
    exact ⟨u1 ++ u2, v2, caps2, by rw [hs, hv, List.append_assoc], RM.cat hu1 hu2, h2⟩
  | alt a b iha ihb =>
    intro s caps k x h
    simp only [mc] at h
    split at h
    next y hma =>
      cases h
      obtain ⟨u, v, caps', hs, hu, hk⟩ := iha hma
      exact ⟨u, v, caps', hs, RM.altL hu, hk⟩
    next hma =>
      obtain ⟨u, v, caps', hs, hu, hk⟩ := ihb h
      exact ⟨u, v, caps', hs, RM.altR hu, hk⟩
  | grp n a iha =>
    intro s caps k x h
    simp only [mc] at h
    obtain ⟨u, v, caps', hs, hu, hk⟩ := iha h
    exact ⟨u, v, (n, s.take (s.length - v.length)) :: caps', hs, RM.grp hu, hk⟩

/-- Completeness of the backtracking engine: if a prefix of the input
matches and the continuation succeeds on the corresponding suffix (whatever
the captures), the engine succeeds. -/
theorem mc_complete {α : Type} {r : RE} :
    ∀ {u v : List Char} {caps : List (Nat × List Char)}
      {k : List Char → List (Nat × List Char) → Option α},
      RM r u → (∀ caps', (k v caps').isSome = true) →
      (mc r (u ++ v) caps k).isSome = true := by
  induction r with
  | eps =>
    intro u v caps k hu hk
    cases hu
    exact hk caps
  | cls p =>
    intro u v caps k hu hk
    cases hu with
    | cls hp => simp only [List.cons_append, List.nil_append, mc, hp, if_true]; exact hk caps
  | starC p =>
    intro u v caps k hu hk
    simp only [mc]
    rw [firstSome_isSome]
    exact ⟨(u, v), starSplits_mem.mpr ⟨rfl, RM_starC_iff.mp hu⟩, hk caps⟩
  | cat a b iha ihb =>
    intro u v caps k hu hk
    cases hu with
    | cat hu1 hu2 =>
      rename_i u1 u2
      rw [List.append_assoc]
      simp only [mc]
      exact iha hu1 fun caps' => ihb hu2 hk
  | alt a b iha ihb =>
    intro u v caps k hu hk
    simp only [mc]
    cases hu with
    | altL h1 =>
      have : (mc a (u ++ v) caps k).isSome = true := iha h1 hk
      cases hm : mc a (u ++ v) caps k with
      | some y => simp
      | none => rw [hm] at this; simp at this
    | altR h2 =>
      cases hm : mc a (u ++ v) caps k with
      | some y => simp
      | none => exact ihb h2 hk
  | grp n a iha =>
    intro u v caps k hu hk
    cases hu with
    | grp h1 => exact iha h1 fun caps' => hk _

theorem mcRun_sound {r : RE} {s rest : List Char} {caps : List (Nat × List Char)}
    (h : mcRun r s = some (rest, caps)) : ∃ u, s = u ++ rest ∧ RM r u := by
  obtain ⟨u, v, caps', hs, hu, hk⟩ := mc_sound h
  obtain ⟨rfl, rfl⟩ : v = rest ∧ caps' = caps := by
    simpa [Prod.ext_iff] using hk
  exact ⟨u, hs, hu⟩

theorem mcRun_complete {r : RE} {u v : List Char} (hu : RM r u) :
    (mcRun r (u ++ v)).isSome = true :=
  mc_complete hu fun _ => rfl

/-- If the input decomposes as `u ++ rest`, the span the search reports for a
match ending at `rest` is `u`. -/
theorem take_sub_length {u rest : List Char} {s : List Char} (hs : s = u ++ rest) :
    s.take (s.length - rest.length) = u := by
  subst hs
  rw [List.length_append, Nat.add_sub_cancel, List.take_left]

theorem searchAux_sound {r : RE} :
    ∀ {s acc pre matched rest : List Char} {caps : List (Nat × List Char)},
      searchAux r acc s = some (pre, matched, rest, caps) →
      ∃ skipped, pre = acc.reverse ++ skipped ∧
        s = skipped ++ matched ++ rest ∧ RM r matched := by
  intro s
  induction s with
  | nil =>
    intro acc pre matched rest caps h
    rw [searchAux] at h
    cases hm : mcRun r [] with
    | some rc =>
      rw [hm] at h
      obtain ⟨u, hs, hu⟩ := @mcRun_sound _ _ rc.1 rc.2 (by rw [hm])
      obtain ⟨rfl, rfl, rfl, rfl⟩ :
          pre = acc.reverse ∧ matched = [] ∧ rest = rc.1 ∧ caps = rc.2 := by
        cases h; exact ⟨rfl, rfl, rfl, rfl⟩
      have hu0 : u = [] := by
        cases u with
        | nil => rfl
        | cons a t => simp at hs
      have hrest : rc.1 = [] := by
        rw [hu0] at hs; simpa using hs.symm
      refine ⟨[], by simp, ?_, ?_⟩
      · simp [hrest]
      · simpa [hu0] using hu
    | none =>
      rw [hm] at h
      simp at h
  | cons c s' ih =>
    intro acc pre matched rest caps h
    rw [searchAux] at h
    cases hm : mcRun r (c :: s') with
    | some rc =>
      rw [hm] at h
      obtain ⟨u, hs, hu⟩ := @mcRun_sound _ _ rc.1 rc.2 (by rw [hm])
      obtain ⟨rfl, rfl, rfl, rfl⟩ :
          pre = acc.reverse ∧
            matched = List.take ((c :: s').length - rc.1.length) (c :: s') ∧
            rest = rc.1 ∧ caps = rc.2 := by
        cases h; exact ⟨rfl, rfl, rfl, rfl⟩
      exact ⟨[], by simp, by
        rw [take_sub_length hs]; simpa using hs, by rw [take_sub_length hs]; exact hu⟩
    | none =>
      rw [hm] at h
      obtain ⟨skipped, hpre, hs, hmtch⟩ := ih h
      refine ⟨c :: skipped, ?_, by simp [hs], hmtch⟩
      rw [hpre]
      simp

theorem search_sound {r : RE} {s pre matched rest : List Char}
    {caps : List (Nat × List Char)}
    (h : search r s = some (pre, matched, rest, caps)) :
    s = pre ++ matched ++ rest ∧ RM r matched := by
  obtain ⟨skipped, hpre, hs, hm⟩ := searchAux_sound h
  simp at hpre
  subst hpre
  exact ⟨hs, hm⟩

theorem searchAux_complete {r : RE} :
    ∀ (pre : List Char) {mid post : List Char} (acc : List Char), RM r mid →
      (searchAux r acc (pre ++ mid ++ post)).isSome = true := by
  intro pre
  induction pre with
  | nil =>
    intro mid post acc hm
    have hsome : (mcRun r ([] ++ mid ++ post)).isSome = true := by
      simpa using mcRun_complete (v := post) hm
    cases hmid : ([] ++ mid ++ post : List Char) with
    | nil =>
      rw [searchAux]
      rw [hmid] at hsome
      cases hmc : mcRun r [] with
      | some rc => simp
      | none => rw [hmc] at hsome; simp at hsome
    | cons c s' =>
      rw [searchAux]
      rw [hmid] at hsome
      cases hmc : mcRun r (c :: s') with
      | some rc => simp
      | none => rw [hmc] at hsome; simp at hsome
  | cons c pre' ih =>
    intro mid post acc hm
    have : (c :: pre' ++ mid ++ post : List Char) = c :: (pre' ++ mid ++ post) := by simp
    rw [this, searchAux]
    cases hmc : mcRun r (c :: (pre' ++ mid ++ post)) with
    | some rc => simp
    | none => exact ih (c :: acc) hm

theorem isMatch_iff {r : RE} {s : List Char} :
    isMatch r s = true ↔ ∃ pre mid post, s = pre ++ mid ++ post ∧ RM r mid := by
  unfold isMatch search
  constructor
  · intro h
    obtain ⟨⟨pre, matched, rest, caps⟩, hv⟩ := Option.isSome_iff_exists.mp h
    obtain ⟨hs, hm⟩ := search_sound hv
    exact ⟨pre, matched, rest, hs, hm⟩
  · rintro ⟨pre, mid, post, rfl, hm⟩
    exact searchAux_complete pre [] hm

/-! ## Match-relation utilities for the crate's patterns -/

theorem RM_chr_iff {c : Char} {s : List Char} : RM (chr c) s ↔ s = [c] := by
  constructor
  · intro h
    cases h with
    | cls hp =>
      rename_i d
      have : d = c := by simpa using hp
      rw [this]
  · rintro rfl
    exact RM.cls (by simp)

theorem RM_plusC_iff {p : Char → Bool} {s : List Char} :
    RM (plusC p) s ↔ s ≠ [] ∧ ∀ c ∈ s, p c = true := by
  unfold plusC
  constructor
  · intro h
    cases h with
    | cat h1 h2 =>
      cases h1 with
      | cls hp =>
        rename_i c t
        refine ⟨by simp, ?_⟩
        intro d hd
        rcases List.mem_cons.mp (by simpa using hd) with rfl | hd'
        · exact hp
        · exact RM_starC_iff.mp h2 d hd'
  · rintro ⟨hne, hall⟩
    cases s with
    | nil => exact absurd rfl hne
    | cons c t =>
      have : RM (RE.cat (.cls p) (.starC p)) ([c] ++ t) :=
        RM.cat (RM.cls (hall c (by simp)))
          (RM_starC_iff.mpr fun d hd => hall d (by simp [hd]))
      simpa using this

theorem RM_litDot_cons_lit {c : Char} {cs s : List Char} (hc : ¬c = '.')
    (h : RM (litDot cs) s) : RM (litDot (c :: cs)) (c :: s) := by
  have h2 : RM (litDot (c :: cs)) ([c] ++ s) := by
    rw [litDot, if_neg hc]
    exact RM.cat (RM.cls (by simp)) h
  simpa using h2

theorem RM_litDot_cons_dot {c : Char} {cs s : List Char} (hc : c ≠ '\n')
    (h : RM (litDot cs) s) : RM (litDot ('.' :: cs)) (c :: s) := by
  have h2 : RM (litDot ('.' :: cs)) ([c] ++ s) := by
    rw [litDot, if_pos rfl]
    exact RM.cat (RM.cls (by simp [dotC, hc])) h
  simpa using h2

/-- A dot-pattern matches its own text (dots match themselves, all other
characters are literals), provided no character is a newline. -/
theorem RM_litDot_self {pat : List Char} (h : ∀ c ∈ pat, c ≠ '\n') :
    RM (litDot pat) pat := by
  induction pat with
  | nil => rw [litDot]; exact RM.eps
  | cons c cs ih =>
    by_cases hc : c = '.'
    · subst hc
      exact RM_litDot_cons_dot (by decide) (ih fun d hd => h d (by simp [hd]))
    · exact RM_litDot_cons_lit hc (ih fun d hd => h d (by simp [hd]))

/-- A dot-free pattern matches only its own text. -/
theorem RM_litDot_nodot {pat : List Char} (hnd : ∀ c ∈ pat, ¬c = '.') :
    ∀ {s : List Char}, RM (litDot pat) s → s = pat := by
  induction pat with
  | nil =>
    intro s h
    rw [litDot] at h
    cases h
    rfl
  | cons c cs ih =>
    intro s h
    rw [litDot, if_neg (hnd c (by simp))] at h
    cases h with
    | cat h1 h2 =>
      rw [RM_chr_iff.mp h1, ih (fun d hd => hnd d (by simp [hd])) h2]
      rfl

/-- Concatenation rule for dot-patterns. -/
theorem RM_litDot_append {a b u v : List Char}
    (ha : RM (litDot a) u) (hb : RM (litDot b) v) :
    RM (litDot (a ++ b)) (u ++ v) := by
  induction a generalizing u with
  | nil =>
    rw [litDot] at ha
    cases ha
    simpa using hb
  | cons c cs ih =>
    rw [litDot] at ha
    cases ha with
    | cat h1 h2 =>
      rename_i u1 u2
      have := RM.cat h1 (ih h2)
      rw [List.cons_append, litDot]
      simpa [List.append_assoc] using this

/-- Splitting rule for dot-patterns whose left part is dot-free. -/
theorem RM_litDot_append_split {a b s : List Char} (hnd : ∀ c ∈ a, ¬c = '.')
    (h : RM (litDot (a ++ b)) s) :
    ∃ v, s = a ++ v ∧ RM (litDot b) v := by
  induction a generalizing s with
  | nil => exact ⟨s, by simp, by simpa using h⟩
  | cons c cs ih =>
    rw [List.cons_append, litDot, if_neg (hnd c (by simp))] at h
    cases h with
    | cat h1 h2 =>
      obtain ⟨v, hv, hb⟩ := ih (fun d hd => hnd d (by simp [hd])) h2
      rw [RM_chr_iff.mp h1, hv]
      exact ⟨v, rfl, hb⟩

theorem wordDot_ne_newline {c : Char} (h : wordDot c = true) : c ≠ '\n' := by
  intro hc
  subst hc
  exact absurd h (by decide)

theorem wordChar_ne_newline {c : Char} (h : wordChar c = true) : c ≠ '\n' := by
  intro hc
  subst hc
  exact absurd h (by decide)

theorem wordChar_ne_dot {c : Char} (h : wordChar c = true) : ¬c = '.' := by
  intro hc
  subst hc
  exact absurd h (by decide)

/-- Substring matching only grows when the haystack is extended. -/
theorem isMatch_append_right {r : RE} {s t : List Char}
    (h : isMatch r s = true) : isMatch r (s ++ t) = true := by
  obtain ⟨pre, mid, post, rfl, hm⟩ := isMatch_iff.mp h
  exact isMatch_iff.mpr ⟨pre, mid, post ++ t, by simp, hm⟩

/-- Reduction of the parameter check for a single matching pair. -/
theorem ensure_params_single {ty tok : List Char} {r : RE}
    (hl : lookupDescriptor ty = some r) (hm : isMatch r tok = true) :
    ensure_parameters_match [ty] ⟨[tok], []⟩ = .ok () := by
  have hp : paramsAll [ty] [tok] = .ok true := by
    rw [paramsAll, hl]
    simp [hm, paramsAll]
  simp [ensure_parameters_match, hp]

/-! ## Claims -/

/-- C2: The per-position compatibility test of `ensure_parameters_match` is
the registry pattern's unanchored substring `is_match` over the descriptor
token: a declared `jint` is accepted against the fragment `asdI` (the
repository's own test exercises this), and a declared `jobject` is accepted
against any token that merely contains an `L...;` run. -/
theorem C2_param_test_is_substring_match :
    ensure_parameters_match ["jint".data] ⟨["asdI".data], []⟩ = .ok () ∧
    ∀ t pre mid post : List Char,
      t = pre ++ ('L' :: (mid ++ (';' :: post))) →
      mid ≠ [] → (∀ c ∈ mid, c ≠ '\n') →
      ensure_parameters_match ["jobject".data] ⟨[t], []⟩ = .ok () := by
  constructor
  · rfl
  · intro t pre mid post ht hne hnl
    subst ht
    have hobj : lookupDescriptor "jobject".data =
        some (.cat (chr 'L') (.cat (plusC dotC) (chr ';'))) := rfl
    refine ensure_params_single hobj ?_
    apply isMatch_iff.mpr
    refine ⟨pre, 'L' :: (mid ++ [';']), post, by simp, ?_⟩
    have h1 : RM (RE.cat (chr 'L') (.cat (plusC dotC) (chr ';')))
        (['L'] ++ (mid ++ [';'])) :=
      RM.cat (RM_chr_iff.mpr rfl)
        (RM.cat
          (RM_plusC_iff.mpr ⟨hne, fun c hc => by simp [dotC, hnl c hc]⟩)
          (RM_chr_iff.mpr rfl))
    simpa using h1

/-- C2 witness: both accepted forms at concrete inputs. -/
theorem C2_witness :
    ensure_parameters_match ["jobject".data] ⟨["XLab;Y".data], []⟩ = .ok () ∧
    ensure_parameters_match ["jint".data] ⟨["asdI".data], []⟩ = .ok () :=
  ⟨C2_param_test_is_substring_match.2 "XLab;Y".data ['X'] ['a', 'b'] ['Y']
      (by decide) (by decide) (by decide),
    C2_param_test_is_substring_match.1⟩

/-- C9 counterexample: the claim says `jstring`'s pattern accepts
`Ljava?lang?String;` for every single character `?`; with the first `?` a
newline (and the second a dot) the pattern does not match, because the
unescaped dots are the regex any-character-except-newline class. -/
theorem C9_counterexample :
    typeAccepts "jstring".data "Ljava\nlang.String;".data = some false := rfl

/-- C9 (amended): the registry patterns for named reference types use
unescaped dots as wildcards, so `jstring` accepts every fragment
`Ljava?lang?String;` and `jclass` every fragment `Ljava?lang?Class;` where
each `?` is any single character other than a newline. -/
theorem C9_dot_wildcards (c1 c2 : Char) (h1 : c1 ≠ '\n') (h2 : c2 ≠ '\n') :
    typeAccepts "jstring".data
        ("Ljava".data ++ (c1 :: ("lang".data ++ (c2 :: "String;".data)))) = some true ∧
    typeAccepts "jclass".data
        ("Ljava".data ++ (c1 :: ("lang".data ++ (c2 :: "Class;".data)))) = some true := by
  constructor
  · have hl : lookupDescriptor "jstring".data =
        some (litDot "Ljava.lang.String;".data) := rfl
    have hm : isMatch (litDot "Ljava.lang.String;".data)
        ("Ljava".data ++ (c1 :: ("lang".data ++ (c2 :: "String;".data)))) = true := by
      apply isMatch_iff.mpr
      refine ⟨[], "Ljava".data ++ (c1 :: ("lang".data ++ (c2 :: "String;".data))), [],
        by simp, ?_⟩
      have e : "Ljava.lang.String;".data =
          "Ljava".data ++ ('.' :: ("lang".data ++ ('.' :: "String;".data))) := by decide
      rw [e]
      exact RM_litDot_append (RM_litDot_self (by decide))
        (RM_litDot_cons_dot h1
          (RM_litDot_append (RM_litDot_self (by decide))
            (RM_litDot_cons_dot h2 (RM_litDot_self (by decide)))))
    unfold typeAccepts
    rw [hl, Option.map_some', hm]
  · have hl : lookupDescriptor "jclass".data =
        some (litDot "Ljava.lang.Class;".data) := rfl
    have hm : isMatch (litDot "Ljava.lang.Class;".data)
        ("Ljava".data ++ (c1 :: ("lang".data ++ (c2 :: "Class;".data)))) = true := by
      apply isMatch_iff.mpr
      refine ⟨[], "Ljava".data ++ (c1 :: ("lang".data ++ (c2 :: "Class;".data))), [],
        by simp, ?_⟩
      have e : "Ljava.lang.Class;".data =
          "Ljava".data ++ ('.' :: ("lang".data ++ ('.' :: "Class;".data))) := by decide
      rw [e]
      exact RM_litDot_append (RM_litDot_self (by decide))
        (RM_litDot_cons_dot h1
          (RM_litDot_append (RM_litDot_self (by decide))
            (RM_litDot_cons_dot h2 (RM_litDot_self (by decide)))))
    unfold typeAccepts
    rw [hl, Option.map_some', hm]

/-- C9 witness: the wildcard positions filled with `?`. -/
theorem C9_witness :
    typeAccepts "jstring".data
        ("Ljava".data ++ ('?' :: ("lang".data ++ ('?' :: "String;".data)))) = some true ∧
    typeAccepts "jclass".data
        ("Ljava".data ++ ('?' :: ("lang".data ++ ('?' :: "Class;".data)))) = some true :=
  C9_dot_wildcards '?' '?' (by decide) (by decide)

/-- C10: the naming check is an unanchored substring test: both
`Java_Test_foobar` (trailing extra characters) and `xJava_Test_foo`
(leading extra characters) pass for logical method name `foo`, and in
general any identifier containing a run `Java_<nonempty>_<name>` passes. -/
theorem C10_name_check_unanchored :
    jniNameMatches "Java_Test_foobar".data "foo".data = true ∧
    jniNameMatches "xJava_Test_foo".data "foo".data = true ∧
    ∀ functionName name pre mid post : List Char,
      (∀ c ∈ name, wordDot c = true) →
      functionName = pre ++ ("Java_".data ++ (mid ++ ('_' :: (name ++ post)))) →
      mid ≠ [] → (∀ c ∈ mid, c ≠ '\n') →
      jniNameMatches functionName name = true := by
  refine ⟨rfl, rfl, ?_⟩
  intro functionName name pre mid post hw hfn hne hnl
  subst hfn
  unfold jniNameMatches
  apply isMatch_iff.mpr
  refine ⟨pre, "Java_".data ++ (mid ++ ('_' :: name)), post, by simp, ?_⟩
  have hname : RM (litDot name) name :=
    RM_litDot_self fun c hc => wordDot_ne_newline (hw c hc)
  have h1 : RM (RE.cat (litDot "Java_".data)
      (.cat (plusC dotC) (.cat (chr '_') (litDot name))))
      ("Java_".data ++ (mid ++ (['_'] ++ name))) :=
    RM.cat (RM_litDot_self (by decide))
      (RM.cat (RM_plusC_iff.mpr ⟨hne, fun c hc => by simp [dotC, hnl c hc]⟩)
        (RM.cat (RM_chr_iff.mpr rfl) hname))
  simpa using h1

/-- C10 witness: a fresh identifier containing the pattern strictly inside. -/
theorem C10_witness : jniNameMatches "Java_A_B_foo".data "foo".data = true :=
  C10_name_check_unanchored.2.2 "Java_A_B_foo".data "foo".data [] "A_B".data []
    (by decide) (by decide) (by decide) (by decide)

/-- C3 counterexample: the claim requires the method name to be matched as a
literal string; but with method name `a.c` the identifier `Java_X_abc` is
accepted even though the literal text `_a.c` occurs nowhere in it — the
unescaped dot acts as a wildcard matching `b`. -/
theorem C3_counterexample :
    jniNameMatches "Java_X_abc".data "a.c".data = true ∧
    containsSeq "_a.c".data "Java_X_abc".data = false := ⟨rfl, rfl⟩

/-- C3 (amended): the naming check compiles `Java_.+_<name>` with the method
name spliced in unescaped and tests it unanchored.  For method names made of
word characters only (letters, digits, underscores — including consecutive
and trailing underscores) this accepts exactly the identifiers containing a
run `Java_<nonempty-no-newline>_<name>` with the name literal; names
containing pattern-special characters such as `.` are instead interpreted as
pattern syntax. -/
theorem C3_naming_literal_for_word_names (functionName name : List Char)
    (hw : ∀ c ∈ name, wordChar c = true) :
    jniNameMatches functionName name = true ↔
      ∃ pre mid post : List Char,
        functionName = pre ++ ("Java_".data ++ (mid ++ ('_' :: (name ++ post)))) ∧
        mid ≠ [] ∧ ∀ c ∈ mid, c ≠ '\n' := by
  constructor
  · intro h
    unfold jniNameMatches at h
    obtain ⟨pre, m, post, hfn, hm⟩ := isMatch_iff.mp h
    cases hm with
    | cat h1 h234 =>
      rename_i u1 v1
      cases h234 with
      | cat h2 h34 =>
        rename_i u2 v2
        cases h34 with
        | cat h3 h4 =>
          rename_i u3 v3
          obtain rfl : u1 = "Java_".data := RM_litDot_nodot (by decide) h1
          obtain ⟨hu2ne, hu2dot⟩ := RM_plusC_iff.mp h2
          obtain rfl : u3 = ['_'] := RM_chr_iff.mp h3
          obtain rfl : v3 = name :=
            RM_litDot_nodot (fun c hc => wordChar_ne_dot (hw c hc)) h4
          refine ⟨pre, u2, post, ?_, hu2ne, ?_⟩
          · rw [hfn]
            simp [List.append_assoc]
          · intro c hc
            have := hu2dot c hc
            simpa [dotC] using this
  · rintro ⟨pre, mid, post, rfl, hne, hnl⟩
    unfold jniNameMatches
    apply isMatch_iff.mpr
    refine ⟨pre, "Java_".data ++ (mid ++ ('_' :: name)), post, by simp, ?_⟩
    have h1 : RM (RE.cat (litDot "Java_".data)
        (.cat (plusC dotC) (.cat (chr '_') (litDot name))))
        ("Java_".data ++ (mid ++ (['_'] ++ name))) :=
      RM.cat (RM_litDot_self (by decide))
        (RM.cat (RM_plusC_iff.mpr ⟨hne, fun c hc => by simp [dotC, hnl c hc]⟩)
          (RM.cat (RM_chr_iff.mpr rfl)
            (RM_litDot_self fun c hc => wordChar_ne_newline (hw c hc))))
    simpa using h1

/-- C3 witness: the repository's own test name with consecutive and trailing
underscores, matched literally. -/
theorem C3_witness :
    jniNameMatches "Java_Test_foo4_123_d____".data "foo4_123_d____".data = true :=
  (C3_naming_literal_for_word_names "Java_Test_foo4_123_d____".data
      "foo4_123_d____".data (by decide)).mpr
    ⟨[], "Test".data, [], by decide, by decide, by decide⟩

/-- C5 counterexample: the descriptor `(I)Ixyz` has trailing characters after
the return fragment `I`; the claim says it must be rejected as malformed, but
the parser accepts it (the return capture is the raw text `Ixyz`) and the
return-type check then passes for a declared `jint`, because the check is an
unanchored substring match. -/
theorem C5_counterexample :
    parseSignature "(I)Ixyz".data = .ok ⟨["I".data], "Ixyz".data⟩ ∧
    ensure_return_types_match (some "jint".data) ⟨["I".data], "Ixyz".data⟩ = .ok () :=
  ⟨rfl, rfl⟩

/-- C5 (amended): the return section is the raw text the `ret` capture
grabbed; no exactly-one-fragment check exists, and the return-type check is
an unanchored substring match, so appending trailing characters to a return
section that passes never causes a rejection. -/
theorem C5_return_check_ignores_trailing (output : Option (List Char))
    (sig : Signature) (extra : List Char)
    (h : ensure_return_types_match output sig = .ok ()) :
    ensure_return_types_match output ⟨sig.params, sig.ret ++ extra⟩ = .ok () := by
  unfold ensure_return_types_match at h ⊢
  cases hl : lookupDescriptor (output.getD "()".data) with
  | none => rw [hl] at h; simp at h
  | some r =>
    rw [hl] at h
    simp only at h ⊢
    by_cases hm : isMatch r sig.ret = true
    · rw [if_pos (isMatch_append_right hm)]
    · rw [if_neg hm] at h
      simp at h

/-- C5 witness: `jint` against return text `I` extended by `xyz`. -/
theorem C5_witness :
    ensure_return_types_match (some "jint".data) ⟨[], "I".data ++ "xyz".data⟩ = .ok () :=
  C5_return_check_ignores_trailing (some "jint".data) ⟨[], "I".data⟩ "xyz".data rfl

/-- C7 counterexample: the descriptor string is parsed before any of the
four checks run, so a request with both a malformed descriptor and a
function name that fails the naming convention reports the
malformed-descriptor error, not the naming-convention error the claim
requires. -/
theorem C7_counterexample :
    verify_signature "foo".data "(".data "Java_Test_wrongName".data
        ["JNIEnv".data, "JClass".data] none = .error .malformedDescriptor ∧
    jniNameMatches "Java_Test_wrongName".data "foo".data = false := ⟨rfl, rfl⟩

/-- C7 (amended): once the descriptor parses, the validator runs naming,
context-parameter, parameter and return checks in that fixed order and stops
at the first failure; in particular whenever the function name fails the
naming convention the reported error is the naming-convention error,
whatever the parameters and return type are. -/
theorem C7_fail_fast_naming_first (name sig functionName : List Char)
    (fnInputs : List (List Char)) (fnOutput : Option (List Char)) (s : Signature)
    (hparse : parseSignature sig = .ok s)
    (hname : jniNameMatches functionName name = false) :
    verify_signature name sig functionName fnInputs fnOutput =
      .error (.namingConvention functionName name) := by
  have hfn : ensure_function_name_is_valid_for_jni functionName name =
      .error (.namingConvention functionName name) := by
    simp [ensure_function_name_is_valid_for_jni, hname]
  unfold verify_signature
  rw [hparse]
  simp only [hfn]

/-- C7 witness: the spec's own example — descriptor `(I)I`, correct context
and types, but function name `Java_Test_wrongName` for method `foo`. -/
theorem C7_witness :
    verify_signature "foo".data "(I)I".data "Java_Test_wrongName".data
        ["JNIEnv".data, "JClass".data, "jint".data] (some "jint".data) =
      .error (.namingConvention "Java_Test_wrongName".data "foo".data) :=
  C7_fail_fast_naming_first "foo".data "(I)I".data "Java_Test_wrongName".data
    ["JNIEnv".data, "JClass".data, "jint".data] (some "jint".data)
    ⟨["I".data], "I".data⟩ rfl rfl

/-- C8: when fewer than two parameters are declared, or the first is not
`JNIEnv`, or the second is not `JClass`, validation fails with the
missing-or-wrong-context-parameter error identifying the position and the
expected type — independently of the remaining parameters and the return
type (which are universally quantified here and never examined). -/
theorem C8_context_params (name sig functionName : List Char)
    (fnInputs : List (List Char)) (fnOutput : Option (List Char)) (s : Signature)
    (hparse : parseSignature sig = .ok s)
    (hname : jniNameMatches functionName name = true) :
    (fnInputs.head? ≠ some "JNIEnv".data →
      verify_signature name sig functionName fnInputs fnOutput =
        .error (.missingContextParam 0 "JNIEnv".data fnInputs.head?)) ∧
    (fnInputs.head? = some "JNIEnv".data →
      (fnInputs.drop 1).head? ≠ some "JClass".data →
      verify_signature name sig functionName fnInputs fnOutput =
        .error (.missingContextParam 1 "JClass".data (fnInputs.drop 1).head?)) := by
  have hfn : ensure_function_name_is_valid_for_jni functionName name = .ok () := by
    simp [ensure_function_name_is_valid_for_jni, hname]
  constructor
  · intro h0
    have hp0 : ensure_param_is 0 fnInputs.head? "JNIEnv".data =
        .error (.missingContextParam 0 "JNIEnv".data fnInputs.head?) := by
      simp [ensure_param_is, h0]
    unfold verify_signature
    rw [hparse]
    simp only [hfn, hp0]
  · intro h0 h1
    have hp0 : ensure_param_is 0 fnInputs.head? "JNIEnv".data = .ok () := by
      simp [ensure_param_is, h0]
    have h1' : ¬fnInputs[1]? = some "JClass".data := by simpa using h1
    have hp1 : ensure_param_is 1 (fnInputs.drop 1).head? "JClass".data =
        .error (.missingContextParam 1 "JClass".data (fnInputs.drop 1).head?) := by
      simp [ensure_param_is, h1']
    unfold verify_signature
    rw [hparse]
    simp only [hfn, hp0, hp1]

/-- C8 witness: the spec's example — a function whose first parameter is
`jint` instead of the environment handle fails with the context error for
position 0, even though parameters and return would otherwise match. -/
theorem C8_witness :
    verify_signature "foo".data "(I)I".data "Java_Test_foo".data
        ["jint".data, "JClass".data, "jint".data] (some "jint".data) =
      .error (.missingContextParam 0 "JNIEnv".data (some "jint".data)) :=
  (C8_context_params "foo".data "(I)I".data "Java_Test_foo".data
      ["jint".data, "JClass".data, "jint".data] (some "jint".data)
      ⟨["I".data], "I".data⟩ rfl rfl).1 (by decide)

theorem dotC_iff {c : Char} : dotC c = true ↔ c ≠ '\n' := by simp [dotC]

/-- Shape of the words matched by `SIGNATURE_REGEX`. -/
theorem RM_SIG_iff {m : List Char} :
    RM SIGNATURE_REGEX m ↔
      ∃ (v : List Char) (c : Char) (w : List Char),
        m = '(' :: (v ++ (')' :: (c :: w))) ∧
        (∀ ch ∈ v, ch ≠ '\n') ∧ c ≠ '\n' ∧ (∀ ch ∈ w, ch ≠ '\n') := by
  constructor
  · intro h
    unfold SIGNATURE_REGEX at h
    cases h with
    | cat h1 h2 =>
      obtain rfl := RM_chr_iff.mp h1
      cases h2 with
      | cat hg1 h3 =>
        rename_i u2 v2
        cases hg1 with
        | grp hstar =>
          cases h3 with
          | cat hpar h4 =>
            rename_i u3 v3
            obtain rfl := RM_chr_iff.mp hpar
            cases h4 with
            | grp hplus =>
              obtain ⟨hne, hall⟩ := RM_plusC_iff.mp hplus
              cases v3 with
              | nil => exact absurd rfl hne
              | cons c w =>
                refine ⟨u2, c, w, by simp, ?_, ?_, ?_⟩
                · exact fun ch hch => dotC_iff.mp (RM_starC_iff.mp hstar ch hch)
                · exact dotC_iff.mp (hall c (by simp))
                · exact fun ch hch => dotC_iff.mp (hall ch (by simp [hch]))
  · rintro ⟨v, c, w, rfl, hv, hc, hw⟩
    have h : RM SIGNATURE_REGEX (['('] ++ (v ++ ([')'] ++ (c :: w)))) := by
      unfold SIGNATURE_REGEX
      refine RM.cat (RM_chr_iff.mpr rfl) (RM.cat (RM.grp ?_)
        (RM.cat (RM_chr_iff.mpr rfl) (RM.grp ?_)))
      · exact RM_starC_iff.mpr fun ch hch => dotC_iff.mpr (hv ch hch)
      · exact RM_plusC_iff.mpr ⟨by simp, fun ch hch => by
          rcases List.mem_cons.mp hch with rfl | hch'
          · exact dotC_iff.mpr hc
          · exact dotC_iff.mpr (hw ch hch')⟩
    simpa using h

/-- C6 counterexample: the claim requires failure whenever the string has no
balanced `(...)` prefix; but `x(I)V` does not start with `(` and still
splits successfully — the search is unanchored. -/
theorem C6_counterexample :
    parseSignature "x(I)V".data = .ok ⟨["I".data], "V".data⟩ ∧
    "x(I)V".data.head? ≠ some '(' := ⟨rfl, by decide⟩

/-- C6 (amended): descriptor splitting fails with the malformed-descriptor
error exactly when no substring of the descriptor has the form
`(`, a newline-free span, `)`, a non-newline character — the pattern is
searched unanchored, so a `(...)` group anywhere in the string (not only as
a prefix) followed by at least one character makes the split succeed.  In
particular `(IF`, with no closing parenthesis, is rejected. -/
theorem C6_split_characterization :
    (∀ sig : List Char,
      parseSignature sig = .error .malformedDescriptor ↔
        ¬∃ (u v : List Char) (c : Char) (w : List Char),
          sig = u ++ ('(' :: (v ++ (')' :: (c :: w)))) ∧
          (∀ ch ∈ v, ch ≠ '\n') ∧ c ≠ '\n') ∧
    parseSignature "(IF".data = .error .malformedDescriptor := by
  constructor
  · intro sig
    constructor
    · intro h hex
      obtain ⟨u, v, c, w, rfl, hv, hc⟩ := hex
      have hmm : RM SIGNATURE_REGEX ('(' :: (v ++ (')' :: (c :: [])))) :=
        RM_SIG_iff.mpr ⟨v, c, [], rfl, hv, hc, by simp⟩
      have hsome : (search SIGNATURE_REGEX
          (u ++ ('(' :: (v ++ (')' :: (c :: w)))))).isSome = true := by
        have := @searchAux_complete SIGNATURE_REGEX u
          ('(' :: (v ++ (')' :: (c :: [])))) w [] hmm
        unfold search
        simpa [List.append_assoc] using this
      unfold parseSignature at h
      cases hs : search SIGNATURE_REGEX (u ++ ('(' :: (v ++ (')' :: (c :: w))))) with
      | some x => rw [hs] at h; simp at h
      | none => rw [hs] at hsome; simp at hsome
    · intro hno
      unfold parseSignature
      cases hs : search SIGNATURE_REGEX sig with
      | none => rfl
      | some x =>
        obtain ⟨pre, matched, rest, caps⟩ := x
        obtain ⟨hsig, hm⟩ := search_sound hs
        obtain ⟨v, c, w, hmeq, hv, hc, hw⟩ := RM_SIG_iff.mp hm
        refine absurd ⟨pre, v, c, w ++ rest, ?_, hv, hc⟩ hno
        rw [hsig, hmeq]
        simp
  · rfl

/-- The token scan never finds a match in the empty string. -/
theorem tokensGo_nil : ∀ fuel, tokensGo fuel [] = [] := by
  intro fuel
  cases fuel with
  | zero => rfl
  | succ f =>
    rw [tokensGo, show search TYPE_REGEX [] = none from rfl]

/-- The fuel of the token scan is irrelevant once it covers the haystack. -/
theorem tokensGo_eq_of_le :
    ∀ (capN : Nat) (s : List Char), s.length ≤ capN →
      ∀ f1 f2, s.length ≤ f1 → s.length ≤ f2 → tokensGo f1 s = tokensGo f2 s := by
  intro capN
  induction capN with
  | zero =>
    intro s hs f1 f2 _ _
    have : s = [] := List.length_eq_zero.mp (Nat.le_zero.mp hs)
    subst this
    rw [tokensGo_nil, tokensGo_nil]
  | succ N ih =>
    intro s hs f1 f2 h1 h2
    cases s with
    | nil => rw [tokensGo_nil, tokensGo_nil]
    | cons a t =>
      cases f1 with
      | zero => exact absurd h1 (by simp)
      | succ f1' =>
        cases f2 with
        | zero => exact absurd h2 (by simp)
        | succ f2' =>
          rw [tokensGo, tokensGo]
          cases hsr : search TYPE_REGEX (a :: t) with
          | none => rfl
          | some x =>
            obtain ⟨pre, matched, rest, caps⟩ := x
            by_cases hemp : matched.isEmpty
            · simp [hemp]
            · simp only [hemp, if_false, Bool.false_eq_true]
              obtain ⟨hsplit, _⟩ := search_sound hsr
              have hmne : matched ≠ [] := by
                intro hx
                rw [hx] at hemp
                exact hemp rfl
              have hlen : rest.length + 1 ≤ (a :: t).length := by
                rw [hsplit]
                simp only [List.length_append]
                have : 1 ≤ matched.length := by
                  cases matched with
                  | nil => exact absurd rfl hmne
                  | cons _ _ => simp
                omega
              have hrest : rest.length ≤ N := by
                have := hs
                simp only [List.length_cons] at this hlen ⊢
                omega
              have hf1 : rest.length ≤ f1' := by
                simp only [List.length_cons] at h1 hlen
                omega
              have hf2 : rest.length ≤ f2' := by
                simp only [List.length_cons] at h2 hlen
                omega
              rw [ih rest hrest f1' f2' hf1 hf2]

/-- C1 counterexample: the parameter section `;` consists of a character
that is part of no valid type fragment, yet parsing succeeds with an empty
token list (the remainder is silently dropped), where the claim requires a
malformed-descriptor failure. -/
theorem C1_counterexample :
    parseSignature "(;)V".data = .ok ⟨[], "V".data⟩ ∧
    tokensOf ";".data = [] := ⟨rfl, rfl⟩

/-- C1 (amended): tokenization never fails; the tokens produced by the
parameter scan occur left-to-right in the section as pairwise disjoint
contiguous runs (no overlap), but characters belonging to no match are
silently skipped rather than raising a malformed-descriptor error. -/
theorem C1_tokens_scattered : ∀ s : List Char, ScatteredIn (tokensOf s) s := by
  have main : ∀ (capN : Nat) (s : List Char), s.length ≤ capN →
      ScatteredIn (tokensOf s) s := by
    intro capN
    induction capN with
    | zero =>
      intro s hs
      have : s = [] := List.length_eq_zero.mp (Nat.le_zero.mp hs)
      subst this
      rw [tokensOf, tokensGo_nil]
      exact ScatteredIn.nil []
    | succ N ih =>
      intro s hs
      cases s with
      | nil =>
        rw [tokensOf, tokensGo_nil]
        exact ScatteredIn.nil []
      | cons a t =>
        rw [tokensOf]
        simp only [List.length_cons]
        rw [tokensGo]
        cases hsr : search TYPE_REGEX (a :: t) with
        | none => exact ScatteredIn.nil _
        | some x =>
          obtain ⟨pre, matched, rest, caps⟩ := x
          by_cases hemp : matched.isEmpty
          · simp only [hemp, if_true]
            exact ScatteredIn.nil _
          · simp only [hemp, if_false, Bool.false_eq_true]
            obtain ⟨hsplit, _⟩ := search_sound hsr
            have hmne : matched ≠ [] := by
              intro hx
              rw [hx] at hemp
              exact hemp rfl
            have hlen : rest.length + 1 ≤ (a :: t).length := by
              rw [hsplit]
              simp only [List.length_append]
              have : 1 ≤ matched.length := by
                cases matched with
                | nil => exact absurd rfl hmne
                | cons _ _ => simp
              omega
            have hrest : rest.length ≤ N := by
              simp only [List.length_cons] at hs hlen
              omega
            have htl : tokensGo t.length rest = tokensOf rest := by
              rw [tokensOf]
              exact tokensGo_eq_of_le rest.length rest (Nat.le_refl _) t.length
                rest.length (by simp only [List.length_cons] at hlen; omega)
                (Nat.le_refl _)
            rw [htl, hsplit]
            exact ScatteredIn.cons pre matched (ih rest hrest)
  exact fun s => main s.length s (Nat.le_refl _)

/-! ## Exact values of the greedy matcher on shaped input

These lemmas compute what the backtracking engine returns (not merely
whether it succeeds) on the inputs relevant to the round-trip property:
the split of a well-formed descriptor and the token found at a fragment
boundary. -/

theorem firstSome_none_of_all {l : List α} {f : α → Option β}
    (h : ∀ a ∈ l, f a = none) : firstSome l f = none := by
  induction l with
  | nil => rfl
  | cons a t ih =>
    rw [firstSome, h a (by simp)]
    exact ih fun x hx => h x (by simp [hx])

theorem firstSome_singleton {a : α} {f : α → Option β} :
    firstSome [a] f = f a := by
  cases h : f a <;> simp [firstSome, h]

/-- The split list of a greedy class-star, with its most-preferred head
exposed. -/
theorem starSplits_cons_form (p : Char → Bool) (s : List Char) :
    starSplits p s =
      (s.take (s.takeWhile p).length, s.drop (s.takeWhile p).length) ::
        (List.range (s.takeWhile p).length).reverse.map
          (fun i => (s.take i, s.drop i)) := by
  rw [starSplits, List.range_succ, List.reverse_append]
  simp

theorem takeWhile_append_break {p : Char → Bool} {u : List Char} {c : Char}
    (hu : ∀ x ∈ u, p x = true) (hc : p c = false) (v : List Char) :
    (u ++ c :: v).takeWhile p = u := by
  induction u with
  | nil => simp [List.takeWhile_cons, hc]
  | cons a t ih =>
    rw [List.cons_append, List.takeWhile_cons, hu a (by simp)]
    rw [ih fun x hx => hu x (by simp [hx])]
    simp

/-- A greedy class-star whose continuation succeeds only at one split
returns that split's continuation value. -/
theorem firstSome_starSplits_unique {β : Type} {p : Char → Bool}
    {P tail : List Char} {f : List Char × List Char → Option β}
    (hallP : ∀ c ∈ P, p c = true)
    (hfail : ∀ u v : List Char, P ++ tail = u ++ v →
      (∀ c ∈ u, p c = true) → u ≠ P → f (u, v) = none) :
    firstSome (starSplits p (P ++ tail)) f = f (P, tail) := by
  cases hk : f (P, tail) with
  | some b =>
    refine firstSome_unique (y := (P, tail)) ?_ hk ?_
    · exact starSplits_mem.mpr ⟨rfl, hallP⟩
    · rintro ⟨u, v⟩ hmem hne
      obtain ⟨heq, hall⟩ := starSplits_mem.mp hmem
      by_cases hu : u = P
      · subst hu
        obtain rfl : v = tail := (List.append_cancel_left heq.symm)
        exact absurd rfl hne
      · exact hfail u v heq hall hu
  | none =>
    rw [firstSome_none_of_all]
    rintro ⟨u, v⟩ hmem
    obtain ⟨heq, hall⟩ := starSplits_mem.mp hmem
    by_cases hu : u = P
    · subst hu
      obtain rfl : v = tail := (List.append_cancel_left heq.symm)
      exact hk
    · exact hfail u v heq hall hu

/-- Exact value of the greedy split on a well-shaped descriptor: the
`params` capture is everything between the outer parentheses and the `ret`
capture is everything after the closing one. -/
theorem mcRun_SIG {P R : List Char}
    (hP : ∀ c ∈ P, c ≠ '(' ∧ c ≠ ')' ∧ c ≠ '\n')
    (hR : ∀ c ∈ R, c ≠ '(' ∧ c ≠ ')' ∧ c ≠ '\n')
    (hRne : R ≠ []) :
    mcRun SIGNATURE_REGEX ('(' :: (P ++ (')' :: R))) = some ([], [(2, R), (1, P)]) := by
  unfold mcRun SIGNATURE_REGEX
  simp only [mc, chr, plusC]
  rw [if_pos (show (('(' : Char) == '(') = true from rfl)]
  refine Eq.trans (firstSome_starSplits_unique ?_ ?_) ?_
  · intro c hc
    simp only [dotC, bne_iff_ne, ne_eq, decide_not]
    simpa using (hP c hc).2.2
  · intro u v heq hall hne
    rcases List.append_eq_append_iff.mp heq with ⟨a', ha1, ha2⟩ | ⟨c', hc1, hc2⟩
    · cases a' with
      | nil => exact absurd (by simpa using ha1) hne
      | cons y ys =>
        rw [List.cons_append] at ha2
        injection ha2 with h1 h2
        cases v with
        | nil => simp
        | cons d t =>
          have hd : d ∈ R := by rw [h2]; simp
          have hdne : ¬d = ')' := (hR d hd).2.1
          simp [hdne]
    · cases c' with
      | nil =>
        have hu : u = P := by simpa using hc1.symm
        exact absurd hu hne
      | cons x xs =>
        have hx : x ∈ P := by rw [hc1]; simp
        have hxne : ¬x = ')' := (hP x hx).2.1
        rw [hc2, List.cons_append]
        simp [hxne]
  · cases R with
    | nil => exact absurd rfl hRne
    | cons rc rw' =>
      have hrc : dotC rc = true := by
        simp only [dotC, bne_iff_ne, ne_eq, decide_not]
        simpa using (hR rc (by simp)).2.2
      simp [hrc]
      have hallw : rw'.takeWhile dotC = rw' := List.takeWhile_eq_self_iff.mpr fun c hc => by
        simp only [dotC, bne_iff_ne, ne_eq, decide_not]
        simpa using (hR c (by simp [hc])).2.2
      rw [starSplits_cons_form, hallw]
      apply firstSome_cons_some
      simp [List.take_succ_cons, List.take_length, List.drop_length]

/-- Parsing a descriptor whose parameter section and return section are
free of parentheses and newlines (and whose return section is nonempty)
splits it exactly at the outer parentheses. -/
theorem parseSignature_wf {P R : List Char}
    (hP : ∀ c ∈ P, c ≠ '(' ∧ c ≠ ')' ∧ c ≠ '\n')
    (hR : ∀ c ∈ R, c ≠ '(' ∧ c ≠ ')' ∧ c ≠ '\n')
    (hRne : R ≠ []) :
    parseSignature ('(' :: (P ++ (')' :: R))) = .ok ⟨tokensOf P, R⟩ := by
  unfold parseSignature search
  rw [searchAux, mcRun_SIG hP hR hRne]
  simp [lookupCap, List.find?]

theorem mc_starC_nil_run {α : Type} {p : Char → Bool} {s : List Char}
    {caps : List (Nat × List Char)}
    {k : List Char → List (Nat × List Char) → Option α}
    (h : s.takeWhile p = []) : mc (.starC p) s caps k = k s caps := by
  simp only [mc]
  rw [starSplits_cons_form, h]
  simp [firstSome_singleton]

theorem primV_ne_L {c : Char} (h : primV c = true) : ¬(c == 'L') = true := by
  intro hL
  have hc : c = 'L' := by simpa using hL
  rw [hc] at h
  exact absurd h (by decide)

/-- The alternation of `TYPE_REGEX` consumes exactly a primitive fragment
under any number of array markers when the remainder starts at a fragment
boundary. -/
theorem mc_ALT_prim {α : Type} {m : Nat} {c : Char} {rest : List Char}
    {caps : List (Nat × List Char)}
    {k : List Char → List (Nat × List Char) → Option α}
    (hc : primV c = true) (hb : fragBoundary rest) :
    mc (.alt TYPE_ALT1 TYPE_ALT2) (List.replicate m '[' ++ (c :: rest)) caps k =
      k rest caps := by
  have hj1c : junk1 c = false := by simp [junk1, hc]
  have hjunk2 : rest.takeWhile junk2 = [] := by
    rcases hb with rfl | ⟨d, t, rfl, hd⟩
    · rfl
    · simp [List.takeWhile_cons, hd]
  have hK1 : mc (.cat (.cls primV) (.starC junk2)) (c :: rest) caps k = k rest caps := by
    rw [show mc (.cat (.cls primV) (.starC junk2)) (c :: rest) caps k =
          (if primV c = true then mc (.starC junk2) rest caps k else none) from rfl]
    rw [if_pos hc]
    exact mc_starC_nil_run hjunk2
  have hA1 : mc TYPE_ALT1 (List.replicate m '[' ++ (c :: rest)) caps k = k rest caps := by
    rw [show mc TYPE_ALT1 (List.replicate m '[' ++ (c :: rest)) caps k =
        firstSome (starSplits junk1 (List.replicate m '[' ++ (c :: rest)))
          (fun uv => mc (.cat (.cls primV) (.starC junk2)) uv.2 caps k) from rfl]
    refine Eq.trans (firstSome_starSplits_unique ?_ ?_) ?_
    · intro x hx
      rw [List.eq_of_mem_replicate hx]
      decide
    · intro u v heq hall hne
      rcases List.append_eq_append_iff.mp heq with ⟨a', ha1, ha2⟩ | ⟨c', hc1, hc2⟩
      · cases a' with
        | nil => exact absurd (by simpa using ha1) hne
        | cons y ys =>
          rw [List.cons_append] at ha2
          injection ha2 with h1 h2
          have hcy : junk1 c = true := by
            rw [h1]
            exact hall y (by rw [ha1]; simp)
          rw [hj1c] at hcy
          exact absurd hcy (by simp)
      · cases c' with
        | nil =>
          have hu : u = List.replicate m '[' := by simpa using hc1.symm
          exact absurd hu hne
        | cons y ys =>
          have hy : y = '[' := by
            have : y ∈ List.replicate m '[' := by rw [hc1]; simp
            exact List.eq_of_mem_replicate this
          subst hy
          rw [hc2, List.cons_append]
          rw [show mc (.cat (.cls primV) (.starC junk2))
                ('[' :: (ys ++ c :: rest)) caps k =
              (if primV '[' = true then mc (.starC junk2) (ys ++ c :: rest) caps k
               else none) from rfl]
          rw [if_neg (by decide)]
    · exact hK1
  rw [show mc (.alt TYPE_ALT1 TYPE_ALT2) (List.replicate m '[' ++ (c :: rest)) caps k =
      (match mc TYPE_ALT1 (List.replicate m '[' ++ (c :: rest)) caps k with
        | some x => some x
        | none => mc TYPE_ALT2 (List.replicate m '[' ++ (c :: rest)) caps k) from rfl]
  rw [hA1]
  cases hk : k rest caps with
  | some b => rfl
  | none =>
    cases m with
    | zero =>
      simp only [List.replicate, List.nil_append]
      rw [show mc TYPE_ALT2 (c :: rest) caps k =
          (if (c == 'L') = true then mc (.cat (plusC wordDot) (chr ';')) rest caps k
           else none) from rfl]
      rw [if_neg (primV_ne_L hc)]
    | succ m' =>
      rw [show List.replicate (m' + 1) '[' ++ (c :: rest) =
          '[' :: (List.replicate m' '[' ++ (c :: rest)) from by
        simp [List.replicate_succ]]
      rw [show mc TYPE_ALT2 ('[' :: (List.replicate m' '[' ++ (c :: rest))) caps k =
          (if (('[' : Char) == 'L') = true then
            mc (.cat (plusC wordDot) (chr ';'))
              (List.replicate m' '[' ++ (c :: rest)) caps k
           else none) from rfl]
      rw [if_neg (by decide)]

/-- The alternation of `TYPE_REGEX` consumes exactly an object-reference
fragment `L<path>;`. -/
theorem mc_ALT_obj {α : Type} {w rest : List Char}
    {caps : List (Nat × List Char)}
    {k : List Char → List (Nat × List Char) → Option α}
    (hwne : w ≠ []) (hall : ∀ c ∈ w, wordDot c = true) :
    mc (.alt TYPE_ALT1 TYPE_ALT2) ('L' :: (w ++ (';' :: rest))) caps k =
      k rest caps := by
  have hA1 : mc TYPE_ALT1 ('L' :: (w ++ (';' :: rest))) caps k = none := by
    rw [show mc TYPE_ALT1 ('L' :: (w ++ (';' :: rest))) caps k =
        mc (.starC junk1) ('L' :: (w ++ (';' :: rest))) caps
          (fun s' caps' => mc (.cat (.cls primV) (.starC junk2)) s' caps' k) from rfl]
    rw [mc_starC_nil_run (by simp [List.takeWhile_cons]; decide)]
    rw [show mc (.cat (.cls primV) (.starC junk2)) ('L' :: (w ++ (';' :: rest))) caps k =
        (if primV 'L' = true then
          mc (.starC junk2) (w ++ (';' :: rest)) caps k else none) from rfl]
    rw [if_neg (by decide)]
  cases w with
  | nil => exact absurd rfl hwne
  | cons h0 t =>
    have hA2 : mc TYPE_ALT2 ('L' :: ((h0 :: t) ++ (';' :: rest))) caps k = k rest caps := by
      rw [show mc TYPE_ALT2 ('L' :: ((h0 :: t) ++ (';' :: rest))) caps k =
          (if (('L' : Char) == 'L') = true then
            (if wordDot h0 = true then
              mc (.starC wordDot) (t ++ (';' :: rest)) caps
                (fun s' caps' => mc (chr ';') s' caps' k)
             else none)
           else none) from rfl]
      rw [if_pos (show (('L' : Char) == 'L') = true from rfl),
        if_pos (hall h0 (by simp))]
      rw [show mc (.starC wordDot) (t ++ (';' :: rest)) caps
            (fun s' caps' => mc (chr ';') s' caps' k) =
          firstSome (starSplits wordDot (t ++ (';' :: rest)))
            (fun uv => mc (chr ';') uv.2 caps k) from rfl]
      refine Eq.trans (firstSome_starSplits_unique ?_ ?_) ?_
      · exact fun x hx => hall x (by simp [hx])
      · intro u v heq hallu hne
        rcases List.append_eq_append_iff.mp heq with ⟨a', ha1, ha2⟩ | ⟨c', hc1, hc2⟩
        · cases a' with
          | nil => exact absurd (by simpa using ha1) hne
          | cons y ys =>
            rw [List.cons_append] at ha2
            injection ha2 with h1 h2
            have hy : wordDot ';' = true := by
              rw [h1]
              exact hallu y (by rw [ha1]; simp)
            exact absurd hy (by decide)
        · cases c' with
          | nil =>
            have hu : u = t := by simpa using hc1.symm
            exact absurd hu hne
          | cons y ys =>
            have hy : y ∈ t := by rw [hc1]; simp
            have hyw : wordDot y = true := hall y (by simp [hy])
            have hysemi : ¬(y == ';') = true := by
              intro hsemi
              have : y = ';' := by simpa using hsemi
              rw [this] at hyw
              exact absurd hyw (by decide)
            rw [hc2, List.cons_append]
            rw [show mc (chr ';') (y :: (ys ++ (';' :: rest))) caps k =
                (if (y == ';') = true then k (ys ++ (';' :: rest)) caps else none)
                from rfl]
            rw [if_neg hysemi]
      · rw [show mc (chr ';') (';' :: rest) caps k =
            (if ((';' : Char) == ';') = true then k rest caps else none) from rfl]
        rw [if_pos (show ((';' : Char) == ';') = true from rfl)]
    rw [show mc (.alt TYPE_ALT1 TYPE_ALT2) ('L' :: ((h0 :: t) ++ (';' :: rest))) caps k =
        (match mc TYPE_ALT1 ('L' :: ((h0 :: t) ++ (';' :: rest))) caps k with
          | some x => some x
          | none => mc TYPE_ALT2 ('L' :: ((h0 :: t) ++ (';' :: rest))) caps k) from rfl]
    rw [hA1, hA2]

theorem primV_of_isPrim {c : Char} (h : isPrim c = true) : primV c = true := by
  simp only [isPrim, Bool.or_eq_true] at h
  simp only [primV, Bool.or_eq_true]
  tauto

theorem TokFrag_ne_nil {f : List Char} (h : TokFrag f) : f ≠ [] := by
  cases h with
  | primA hc => simp
  | objA hd hw hall => simp

/-- A fragment starts with `[`, `L`, or a primitive code — all of which stop
the trailing-junk class. -/
theorem TokFrag_boundary_head {f : List Char} (h : TokFrag f) :
    ∃ c t, f = c :: t ∧ junk2 c = false := by
  cases h with
  | primA hc =>
    rename_i m c
    cases m with
    | zero =>
      refine ⟨c, [], by simp, ?_⟩
      simp [junk2, primV_of_isPrim hc]
    | succ m' =>
      refine ⟨'[', List.replicate m' '[' ++ [c], by simp [List.replicate_succ], ?_⟩
      decide
  | objA hd hw hall =>
    rename_i d w
    cases d with
    | zero => exact ⟨'L', w ++ [';'], by simp, by decide⟩
    | succ d' =>
      refine ⟨'[', List.replicate d' '[' ++ ('L' :: (w ++ [';'])), ?_, by decide⟩
      simp [List.replicate_succ]

theorem flatten_boundary {frags : List (List Char)}
    (h : ∀ f ∈ frags, TokFrag f) : fragBoundary frags.flatten := by
  induction frags with
  | nil => exact Or.inl rfl
  | cons g gs ih =>
    obtain ⟨c, t, hg, hc⟩ := TokFrag_boundary_head (h g (by simp))
    refine Or.inr ⟨c, t ++ gs.flatten, ?_, hc⟩
    simp [hg]

theorem mc_optBr_not {α : Type} {X : RE} {c0 : Char} {t : List Char}
    {caps : List (Nat × List Char)}
    {k : List Char → List (Nat × List Char) → Option α}
    (h : (c0 == '[') = false) :
    mc (.cat (optR (chr '[')) X) (c0 :: t) caps k = mc X (c0 :: t) caps k := by
  unfold optR
  simp only [mc, chr]
  rw [h]
  simp

theorem mc_optBr_yes {α : Type} {X : RE} {t : List Char}
    {caps : List (Nat × List Char)}
    {k : List Char → List (Nat × List Char) → Option α} {b : α}
    (h : mc X t caps k = some b) :
    mc (.cat (optR (chr '[')) X) ('[' :: t) caps k = some b := by
  unfold optR
  simp only [mc, chr]
  simp [h]

/-- At a fragment boundary the tokenizer's preferred match is exactly the
next fragment (for the fragment shapes of `TokFrag`). -/
theorem mcRun_TYPE_exact {f rest : List Char} (hf : TokFrag f)
    (hb : fragBoundary rest) :
    mcRun TYPE_REGEX (f ++ rest) = some (rest, []) := by
  unfold mcRun TYPE_REGEX
  cases hf with
  | primA hc =>
    rename_i m c
    have hcv : primV c = true := primV_of_isPrim hc
    cases m with
    | zero =>
      have hne : (c == '[') = false := by
        have : ¬c = '[' := by
          intro hcb
          rw [hcb] at hc
          exact absurd hc (by decide)
        simpa using this
      rw [show (List.replicate 0 '[' ++ [c]) ++ rest = c :: rest from by simp]
      rw [mc_optBr_not hne]
      have hv := @mc_ALT_prim _ 0 c rest [] (fun r cp => some (r, cp)) hcv hb
      rw [show List.replicate 0 '[' ++ (c :: rest) = c :: rest from by simp] at hv
      exact hv
    | succ m' =>
      rw [show (List.replicate (m' + 1) '[' ++ [c]) ++ rest =
          '[' :: (List.replicate m' '[' ++ (c :: rest)) from by
        simp [List.replicate_succ]]
      exact mc_optBr_yes (mc_ALT_prim hcv hb)
  | objA hd hwne hall =>
    rename_i d w
    cases d with
    | zero =>
      rw [show (List.replicate 0 '[' ++ ('L' :: (w ++ [';']))) ++ rest =
          'L' :: (w ++ (';' :: rest)) from by simp]
      rw [mc_optBr_not (by decide)]
      exact mc_ALT_obj hwne hall
    | succ d' =>
      cases d' with
      | zero =>
        rw [show (List.replicate 1 '[' ++ ('L' :: (w ++ [';']))) ++ rest =
            '[' :: ('L' :: (w ++ (';' :: rest))) from by simp]
        exact mc_optBr_yes (mc_ALT_obj hwne hall)
      | succ d'' => exact absurd hd (by omega)

/-- The token scan recovers the fragment list of a well-shaped parameter
section. -/
theorem tokensGo_flatten :
    ∀ (frags : List (List Char)) (fuel : Nat), (∀ f ∈ frags, TokFrag f) →
      (frags.flatten).length ≤ fuel → tokensGo fuel frags.flatten = frags := by
  intro frags
  induction frags with
  | nil =>
    intro fuel _ _
    simpa using tokensGo_nil fuel
  | cons f fr ih =>
    intro fuel hall hlen
    have hf : TokFrag f := hall f (by simp)
    obtain ⟨c, t, hfc, _⟩ := TokFrag_boundary_head hf
    have hmc : mcRun TYPE_REGEX (f ++ fr.flatten) = some (fr.flatten, []) :=
      mcRun_TYPE_exact hf (flatten_boundary fun g hg => hall g (by simp [hg]))
    have heq : c :: (t ++ fr.flatten) = f ++ fr.flatten := by rw [hfc]; simp
    have hsearch : search TYPE_REGEX ((f :: fr).flatten) =
        some ([], f, fr.flatten, []) := by
      unfold search
      rw [show (f :: fr).flatten = c :: (t ++ fr.flatten) from by simp [hfc]]
      rw [searchAux, heq, hmc]
      simp [take_sub_length rfl]
    cases fuel with
    | zero =>
      exfalso
      rw [show (f :: fr).flatten = c :: (t ++ fr.flatten) from by simp [hfc]] at hlen
      simp at hlen
    | succ fuel' =>
      rw [tokensGo, hsearch]
      have hfe : f.isEmpty = false := by simp [hfc]
      have hlen' : fr.flatten.length ≤ fuel' := by
        rw [show (f :: fr).flatten = c :: (t ++ fr.flatten) from by simp [hfc]] at hlen
        simp only [List.length_cons, List.length_append] at hlen
        omega
      simp [hfe]
      exact ih fuel' (fun g hg => hall g (by simp [hg])) hlen'

theorem tokensOf_flatten {frags : List (List Char)}
    (h : ∀ f ∈ frags, TokFrag f) : tokensOf frags.flatten = frags :=
  tokensGo_flatten frags _ h (Nat.le_refl _)

theorem TokFrag_chars {f : List Char} (h : TokFrag f) :
    ∀ c ∈ f, c ≠ '(' ∧ c ≠ ')' ∧ c ≠ '\n' := by
  cases h with
  | primA hc =>
    rename_i m c0
    intro c hcmem
    rcases List.mem_append.mp hcmem with hm | hm
    · rw [List.eq_of_mem_replicate hm]
      refine ⟨by decide, by decide, by decide⟩
    · have hcc : c = c0 := by simpa using hm
      subst hcc
      refine ⟨?_, ?_, ?_⟩ <;> intro hx <;> rw [hx] at hc <;>
        exact absurd hc (by decide)
  | objA hd hw hall =>
    rename_i d w
    intro c hcmem
    rcases List.mem_append.mp hcmem with hm | hm
    · rw [List.eq_of_mem_replicate hm]
      refine ⟨by decide, by decide, by decide⟩
    · rcases List.mem_cons.mp hm with rfl | hm2
      · refine ⟨by decide, by decide, by decide⟩
      · rcases List.mem_append.mp hm2 with hw1 | hw2
        · have hwd := hall c hw1
          refine ⟨?_, ?_, ?_⟩ <;> intro hx <;> rw [hx] at hwd <;>
            exact absurd hwd (by decide)
        · have hcc : c = ';' := by simpa using hw2
          subst hcc
          refine ⟨by decide, by decide, by decide⟩

theorem WFfrag_ne_nil {f : List Char} (h : WFfrag f) : f ≠ [] := by
  cases h with
  | prim hc => simp
  | obj hw hall => simp
  | arr hf => simp

theorem WFfrag_chars {f : List Char} (h : WFfrag f) :
    ∀ c ∈ f, c ≠ '(' ∧ c ≠ ')' ∧ c ≠ '\n' := by
  induction h with
  | prim hc =>
    intro c hcmem
    have hcc := List.mem_singleton.mp hcmem
    subst hcc
    refine ⟨?_, ?_, ?_⟩ <;> intro hx <;> rw [hx] at hc <;>
      exact absurd hc (by decide)
  | obj hw hall =>
    intro c hcmem
    rcases List.mem_cons.mp hcmem with rfl | hm
    · refine ⟨by decide, by decide, by decide⟩
    · rcases List.mem_append.mp hm with hw1 | hw2
      · have hwd := hall c hw1
        refine ⟨?_, ?_, ?_⟩ <;> intro hx <;> rw [hx] at hwd <;>
          exact absurd hwd (by decide)
      · have hcc : c = ';' := by simpa using hw2
        subst hcc
        refine ⟨by decide, by decide, by decide⟩
  | arr hf ih =>
    intro c hcmem
    rcases List.mem_cons.mp hcmem with rfl | hm
    · refine ⟨by decide, by decide, by decide⟩
    · exact ih c hm

theorem RetFrag_facts {r : List Char} (h : RetFrag r) :
    (∀ c ∈ r, c ≠ '(' ∧ c ≠ ')' ∧ c ≠ '\n') ∧ r ≠ [] := by
  rcases h with h | rfl
  · exact ⟨WFfrag_chars h, WFfrag_ne_nil h⟩
  · refine ⟨?_, by simp⟩
    intro c hc
    have hcc : c = 'V' := by simpa using hc
    subst hcc
    refine ⟨by decide, by decide, by decide⟩

/-- C4 counterexample: the multi-dimensional object array `[[Ljava.lang.String;`
is a well-formed fragment, but the tokenizer can consume at most one leading
array marker before an object reference, so the parse of
`([[Ljava.lang.String;)V` drops a bracket and re-serialization does not
reproduce the descriptor. -/
theorem C4_counterexample :
    WFfrag "[[Ljava.lang.String;".data ∧
    parseSignature "([[Ljava.lang.String;)V".data =
      .ok ⟨["[Ljava.lang.String;".data], "V".data⟩ ∧
    serialize ⟨["[Ljava.lang.String;".data], "V".data⟩ ≠
      "([[Ljava.lang.String;)V".data := by
  refine ⟨?_, rfl, by decide⟩
  have hobj : WFfrag ('L' :: ("java.lang.String".data ++ [';'])) :=
    WFfrag.obj (by decide) (by decide)
  have h2 := WFfrag.arr (WFfrag.arr hobj)
  rw [show "[[Ljava.lang.String;".data =
      '[' :: ('[' :: ('L' :: ("java.lang.String".data ++ [';']))) from by decide]
  exact h2

/-- C4 (amended): for every well-formed descriptor in which no parameter
fragment is a multi-dimensional object array (two or more array markers
before an `L...;` reference), concatenating the parsed parameter tokens in
order, wrapping them in parentheses, and appending the parsed return token
reproduces the original descriptor string.  The return fragment may be any
fragment of the grammar (or the no-value code), multi-dimensional object
arrays included, since the return capture is kept verbatim. -/
theorem C4_roundtrip (frags : List (List Char)) (ret : List Char)
    (hf : ∀ f ∈ frags, TokFrag f) (hr : RetFrag ret) :
    ∃ s : Signature,
      parseSignature ('(' :: (frags.flatten ++ (')' :: ret))) = .ok s ∧
      serialize s = '(' :: (frags.flatten ++ (')' :: ret)) := by
  obtain ⟨hrch, hrne⟩ := RetFrag_facts hr
  have hPch : ∀ c ∈ frags.flatten, c ≠ '(' ∧ c ≠ ')' ∧ c ≠ '\n' := by
    intro c hc
    obtain ⟨g, hg, hcg⟩ := List.mem_flatten.mp hc
    exact TokFrag_chars (hf g hg) c hcg
  refine ⟨⟨frags, ret⟩, ?_, rfl⟩
  rw [parseSignature_wf hPch hrch hrne, tokensOf_flatten hf]

/-- C4 witness: the spec's own passing example,
`(Ljava.lang.String;F)Ljava.lang.String;`. -/
theorem C4_witness :
    ∃ s : Signature,
      parseSignature "(Ljava.lang.String;F)Ljava.lang.String;".data = .ok s ∧
      serialize s = "(Ljava.lang.String;F)Ljava.lang.String;".data := by
  have hobj : TokFrag "Ljava.lang.String;".data := by
    have h := TokFrag.objA (d := 0) (w := "java.lang.String".data)
      (by omega) (by decide) (by decide)
    rw [show List.replicate 0 '[' ++ ('L' :: ("java.lang.String".data ++ [';'])) =
        "Ljava.lang.String;".data from by decide] at h
    exact h
  have hF : TokFrag "F".data := by
    have h := TokFrag.primA (k := 0) (c := 'F') (by decide)
    rw [show List.replicate 0 '[' ++ ['F'] = "F".data from by decide] at h
    exact h
  have hret : WFfrag "Ljava.lang.String;".data := by
    have h := WFfrag.obj (w := "java.lang.String".data) (by decide) (by decide)
    rw [show ('L' :: ("java.lang.String".data ++ [';'])) =
        "Ljava.lang.String;".data from by decide] at h
    exact h
  have hmain := C4_roundtrip ["Ljava.lang.String;".data, "F".data]
    "Ljava.lang.String;".data
    (by
      intro g hg
      rcases List.mem_cons.mp hg with rfl | hg2
      · exact hobj
      · rcases List.mem_cons.mp hg2 with rfl | h3
        · exact hF
        · simp at h3)
    (Or.inl hret)
  rw [show "(Ljava.lang.String;F)Ljava.lang.String;".data =
      '(' :: ((["Ljava.lang.String;".data, "F".data].flatten) ++
        (')' :: "Ljava.lang.String;".data)) from by decide]
  exact hmain

end JniVerify
